import Mathlib

/-!
# Verification of the AITutor (ClassMind/Eduverse) specification

This development embeds, in Lean 4, the parts of the repository that the
specification's claims are about.

The repository's source under `src/` consists of a React front-end
(pages such as `SettingsPage.jsx`, `ChatPage.jsx`, `SubjectPage`) plus
planning prose.  The settings-page state logic (`SettingsPage.jsx`) is real
executable code and is embedded directly.  The ingestion/retrieval/answer
pipeline described by the specification (ingestion state machine, chunker,
vector index, retrieval engine, answer composer) has no implementation under
`src/` — only its UI mockups and the implementation plan refer to it — so
those components are modelled from the specification's own words; each such
definition carries a doc comment beginning `Modelled from the spec:`.
-/

namespace SettingsPage

/-- The state held by `SettingsPage.jsx` (lines 7–16): the entered API key,
its visibility flag, the three RAG parameters, and the toast flag.
Temperature is modelled as a rational. -/
structure SettingsState where
  apiKey : String
  isApiKeyVisible : Bool
  chunkSize : Nat
  topK : Int
  temperature : ℚ
  showToast : Bool
deriving DecidableEq, Repr

/-- The initial state of `SettingsPage.jsx` (`useState` initializers,
lines 7–16). -/
def initialSettings : SettingsState :=
  { apiKey := "AIzaSyD-ExampleKeyForUI-Structure"
    isApiKeyVisible := false
    chunkSize := 1024
    topK := 5
    temperature := 7/10
    showToast := true }

/-- `handleReset` from `SettingsPage.jsx` lines 23–27: sets the three RAG
parameters back to their defaults and touches nothing else. -/
def handleReset (s : SettingsState) : SettingsState :=
  { s with chunkSize := 1024, topK := 5, temperature := 7/10 }

/-- The events that can change the Top-K value on the settings page
(`SettingsPage.jsx` lines 131–140): the decrement button, the increment
button, and a typed input.  A typed input carries the result of JavaScript
`parseInt` on the field text: `none` models `NaN` (non-numeric text). -/
inductive TopKEvent where
  | dec : TopKEvent
  | inc : TopKEvent
  | input : Option Int → TopKEvent
deriving DecidableEq, Repr

/-- JavaScript `parseInt(v) || 1`: `NaN` and `0` are falsy, so both are
replaced by `1`; any other parsed integer passes through. -/
def parseOr1 : Option Int → Int
  | none => 1
  | some n => if n = 0 then 1 else n

/-- One Top-K state transition, as wired in `SettingsPage.jsx`:
decrement is `setTopK(Math.max(1, topK - 1))`, increment is
`setTopK(topK + 1)`, and typing runs
`setTopK(Math.max(1, parseInt(e.target.value) || 1))`. -/
def topKStep (k : Int) : TopKEvent → Int
  | .dec => max 1 (k - 1)
  | .inc => k + 1
  | .input v => max 1 (parseOr1 v)

/-- Running a sequence of Top-K events from the initial value `5`
(`SettingsPage.jsx` line 12). -/
def topKRun (evs : List TopKEvent) : Int :=
  evs.foldl topKStep initialSettings.topK

lemma topKStep_ge_one (k : Int) (e : TopKEvent) (hk : 1 ≤ k) :
    1 ≤ topKStep k e := by
  cases e with
  | dec => exact le_max_left 1 (k - 1)
  | inc => simp only [topKStep]; omega
  | input v => exact le_max_left 1 (parseOr1 v)

lemma topKFoldl_ge_one (evs : List TopKEvent) :
    ∀ k : Int, 1 ≤ k → 1 ≤ evs.foldl topKStep k := by
  induction evs with
  | nil => intro k hk; simpa using hk
  | cons e evs ih =>
      intro k hk
      exact ih (topKStep k e) (topKStep_ge_one k e hk)

end SettingsPage

namespace Pipeline

/-- Modelled from the spec: chunk identity.  The implementation of the
ingestion pipeline is absent from `src/` (the repository holds only the UI
and the implementation plan); per spec §4.1/§4.3 chunk ids are
"deterministic chunk ids derived from artifact id + ordinal position",
modelled as the pair of the artifact id and the ordinal. -/
def chunkId (artifactId : String) (ordinal : Nat) : String × Nat :=
  (artifactId, ordinal)

/-- Modelled from the spec: the `Chunk` record of §3 — a bounded slice of
segment text carrying its embedding vector, the parent metadata, the source
artifact id, the owning user (the vector index is namespaced per user,
§4.4), and the computed ordinal used for id generation (§4.3). -/
structure Chunk where
  id : String × Nat
  sourceId : String
  ownerId : String
  ordinal : Nat
  text : String
  embedding : List Int
deriving DecidableEq, Repr

/-- Modelled from the spec: a `Citation` (§3) — "a resolved reference —
ordinal number, chunk id, … snippet". -/
structure Citation where
  ordinal : Nat
  chunkId : String × Nat
  snippet : String
deriving DecidableEq, Repr

/-- Modelled from the spec: a composed answer, the `{answer text,
citation list}` pair produced by the Answer Composer (§2, §4.6). -/
structure ComposedAnswer where
  text : String
  citations : List Citation
deriving DecidableEq, Repr

/-- Accumulate a decimal digit sequence into a number. -/
def digitsToNat (ds : List Char) : Nat :=
  ds.foldl (fun n c => 10 * n + (c.toNat - 48)) 0

/-- Modelled from the spec: extraction of the "citation ordinals appearing
in the answer text" (§4.6) — every bracketed ordinal `[n]` occurring in the
character stream. -/
def extractOrdinals : List Char → List Nat
  | [] => []
  | c :: rest =>
      if c = '[' then
        let digits := rest.takeWhile Char.isDigit
        match rest.dropWhile Char.isDigit with
        | ']' :: _ =>
            if digits = [] then extractOrdinals rest
            else digitsToNat digits :: extractOrdinals rest
        | _ => extractOrdinals rest
      else extractOrdinals rest

/-- Modelled from the spec: the citation-resolution step of the Answer
Composer (§4.6).  `ctx` is "the ordinal-to-chunk mapping used to build the
prompt".  Ordinals extracted from the generated text are resolved against
`ctx`; "ordinals with no corresponding chunk (hallucinated) are dropped from
the structured citation list but the answer text is returned unmodified". -/
def resolveCitations (ctx : List (Nat × Chunk)) (answerText : String) :
    ComposedAnswer :=
  { text := answerText
    citations :=
      (extractOrdinals answerText.data).filterMap fun o =>
        (ctx.lookup o).map fun ch =>
          { ordinal := o, chunkId := ch.id, snippet := ch.text } }

lemma lookup_mem {α β : Type} [BEq α] [LawfulBEq α]
    (l : List (α × β)) (a : α) (b : β) (h : l.lookup a = some b) :
    (a, b) ∈ l := by
  induction l with
  | nil => simp [List.lookup] at h
  | cons p l ih =>
      obtain ⟨k, v⟩ := p
      by_cases hk : a == k
      · have hk2 : a = k := eq_of_beq hk
        subst hk2
        simp only [List.lookup, beq_self_eq_true] at h
        obtain rfl : v = b := Option.some.inj h
        exact List.mem_cons_self _ _
      · have hk2 : (a == k) = false := by simpa using hk
        simp only [List.lookup, hk2] at h
        exact List.mem_cons_of_mem _ (ih h)

/-- Modelled from the spec: the Vector Index (§4.4) as the multiset of
stored chunks (order is insertion order). -/
def VectorIndex := List Chunk

/-- Modelled from the spec: `deleteBySource(artifactId)` (§4.4, §8) —
"removes 100% of chunks whose metadata.source_id == id and none with a
different id". -/
def deleteBySource (artifactId : String) (idx : List Chunk) : List Chunk :=
  idx.filter fun c => !(c.sourceId == artifactId)

/-- Modelled from the spec: similarity score of a chunk against a query
embedding, as the dot product of the two vectors. -/
def score (q : List Int) (c : Chunk) : Int :=
  ((q.zip c.embedding).map fun p => p.1 * p.2).sum

/-- Modelled from the spec: the §4.4 result order — "descending similarity
score with ties broken by chunk ordinal". -/
def ranksBefore (q : List Int) (c d : Chunk) : Bool :=
  score q d < score q c || (score q c == score q d && c.ordinal ≤ d.ordinal)

/-- Insert a chunk into a list already sorted by `ranksBefore`. -/
def insertRanked (q : List Int) (c : Chunk) : List Chunk → List Chunk
  | [] => [c]
  | d :: ds => if ranksBefore q c d then c :: d :: ds else d :: insertRanked q c ds

/-- Sort chunks by `ranksBefore` (insertion sort, stable and
deterministic, as §4.4 requires for testing). -/
def rankSort (q : List Int) : List Chunk → List Chunk
  | [] => []
  | c :: cs => insertRanked q c (rankSort q cs)

/-- Modelled from the spec: `search(queryEmbedding, k, …)` of the Vector
Index (§4.4), namespaced at the interface: "each user's chunks live in an
isolated logical partition; cross-user search is never possible at the
interface level".  The search first restricts the store to the caller's
namespace, then ranks and takes the top `k`. -/
def search (idx : List Chunk) (user : String) (q : List Int) (k : Nat) :
    List Chunk :=
  (rankSort q (idx.filter fun c => c.ownerId == user)).take k

/-- Modelled from the spec: the context window handed to the Answer
Composer — "the final top-k chunks (each tagged with an ordinal)" (§4.6),
ordinals starting at 1. -/
def buildContext (cs : List Chunk) : List (Nat × Chunk) :=
  (List.range cs.length).zip cs |>.map fun p => (p.1 + 1, p.2)

/-- Modelled from the spec: the "no relevant context found" message of §7 —
the user-visible behavior for zero retrieved chunks is an explicit
"I don't have that information" message with an empty citation list. -/
def noInfoMessage : String := "I don\x27t have that information."

/-- Modelled from the spec: the Retrieval/Answer path (§4.6, §7).  It is a
total function — the zero-chunk condition is "not an error" and "must
always still return a response to the caller rather than raising".  With no
retrieved context it yields the no-information answer with an empty
citation list; otherwise it resolves the generated text's citations against
the retrieved context. -/
def answerPath (retrieved : List (Nat × Chunk)) (genText : String) :
    ComposedAnswer :=
  if retrieved.isEmpty then { text := noInfoMessage, citations := [] }
  else resolveCitations retrieved genText

/-- Modelled from the spec: the full `ask` query surface (§6) specialised
to a fixed generated text: retrieve from the index within the user's
namespace, build the ordinal-tagged context, and compose the answer. -/
def askPipeline (idx : List Chunk) (user : String) (q : List Int) (k : Nat)
    (genText : String) : ComposedAnswer :=
  answerPath (buildContext (search idx user q k)) genText

lemma mem_insertRanked (q : List Int) (c d : Chunk) (l : List Chunk) :
    d ∈ insertRanked q c l ↔ d = c ∨ d ∈ l := by
  induction l with
  | nil => simp [insertRanked]
  | cons e l ih =>
      by_cases h : ranksBefore q c e
      · simp [insertRanked, h]
      · simp [insertRanked, h, ih]
        tauto

lemma mem_rankSort (q : List Int) (d : Chunk) (l : List Chunk) :
    d ∈ rankSort q l ↔ d ∈ l := by
  induction l with
  | nil => simp [rankSort]
  | cons c l ih => simp [rankSort, mem_insertRanked, ih]

/-- Modelled from the spec: the stage enum of an `IngestionJob` (§3, §4.1):
`Pending, Downloading, Loading, Enriching, Chunking, Embedding, Completed,
Failed`. -/
inductive Stage where
  | pending | downloading | loading | enriching | chunking | embedding
  | completed | failed
deriving DecidableEq, Repr

/-- Modelled from the spec: the strictly linear stage sequence of §4.1,
`Pending → Downloading → Loading → Enriching → Chunking → Embedding →
Completed`; the two terminal stages have no successor. -/
def nextStage : Stage → Option Stage
  | .pending => some .downloading
  | .downloading => some .loading
  | .loading => some .enriching
  | .enriching => some .chunking
  | .chunking => some .embedding
  | .embedding => some .completed
  | .completed => none
  | .failed => none

/-- Modelled from the spec: the progress fraction reported on entering each
stage (§3: "progress fraction [0,1]"; §4.1: "progress updates after every
stage").  Six working stages split the unit interval evenly; the value for
`failed` is irrelevant because a failing job keeps its last progress. -/
def stageProgress : Stage → ℚ
  | .pending => 0
  | .downloading => 1/6
  | .loading => 2/6
  | .enriching => 3/6
  | .chunking => 4/6
  | .embedding => 5/6
  | .completed => 1
  | .failed => 1

/-- Modelled from the spec: the observable state of an `IngestionJob` (§3):
its current stage and its reported progress fraction. -/
structure JobState where
  stage : Stage
  progress : ℚ
deriving DecidableEq, Repr

/-- Modelled from the spec: a freshly submitted job: `Pending`, progress 0. -/
def initJob : JobState := { stage := .pending, progress := 0 }

/-- Modelled from the spec: the §4.1 transition relation.  A job either
advances to the next stage of the linear sequence (reporting that stage's
progress) or transitions from any non-terminal stage to `Failed`, keeping
its current progress; there is no other transition. -/
inductive JobStep : JobState → JobState → Prop where
  | advance (j : JobState) (s : Stage) :
      nextStage j.stage = some s → JobStep j { stage := s, progress := stageProgress s }
  | fail (j : JobState) :
      j.stage ≠ .completed → j.stage ≠ .failed →
      JobStep j { stage := .failed, progress := j.progress }

/-- A job state reachable from the initial state by §4.1 transitions. -/
def JobReachable (j : JobState) : Prop :=
  Relation.ReflTransGen JobStep initJob j

lemma nextStage_progress_mono (s t : Stage) (h : nextStage s = some t) :
    stageProgress s ≤ stageProgress t := by
  cases s <;> simp only [nextStage, Option.some.injEq] at h <;>
    first
      | (subst h; norm_num [stageProgress])
      | exact absurd h (by simp)

lemma jobReachable_progress_eq (j : JobState) (h : JobReachable j) :
    j.stage = .failed ∨ j.progress = stageProgress j.stage := by
  induction h with
  | refl => right; rfl
  | tail _ st _ =>
      cases st with
      | advance s _ => right; rfl
      | fail _ _ => left; rfl

/-- Modelled from the spec: one row of the persistent job table (§3, §9):
a job id, the artifact it ingests, and its current stage. -/
structure Job where
  jobId : Nat
  artifactId : String
  stage : Stage
deriving DecidableEq, Repr

/-- A job is active when its stage is non-terminal (§3: "re-submission
while a job is in a non-terminal state is rejected"). -/
def jobActive (j : Job) : Bool :=
  !(j.stage == Stage.completed) && !(j.stage == Stage.failed)

/-- Modelled from the spec: the system state of §5 — the persistent job
table plus a fresh-id counter. -/
structure SysState where
  jobs : List Job
  nextId : Nat
deriving DecidableEq, Repr

/-- The number of active jobs for one artifact id. -/
def countActive (aid : String) (σ : SysState) : Nat :=
  σ.jobs.countP fun j => j.artifactId == aid && jobActive j

/-- Modelled from the spec: `submit(artifactId)` (§5, §6).  "A second
submission while one is in-flight is rejected, not queued twice": if any
active job for the artifact exists the submission is rejected with the
"already in progress" signal; otherwise a fresh `Pending` job is created. -/
def submit (aid : String) (σ : SysState) : Except String SysState :=
  if 0 < countActive aid σ then .error "already in progress"
  else .ok { jobs := { jobId := σ.nextId, artifactId := aid, stage := .pending } :: σ.jobs
             nextId := σ.nextId + 1 }

/-- The system-level events: a submission, or one job moving along the
stage sequence, or one job failing. -/
inductive SysEvent where
  | submitEv : String → SysEvent
  | advanceEv : Nat → SysEvent
  | failEv : Nat → SysEvent
deriving DecidableEq, Repr

/-- Advance one job along the linear stage sequence; terminal stages have
no successor and stay put. -/
def advanceJob (j : Job) : Job :=
  match nextStage j.stage with
  | some s => { j with stage := s }
  | none => j

/-- Fail one job: any active job may transition to `Failed` (§4.1);
terminal stages stay put. -/
def failJob (j : Job) : Job :=
  if jobActive j then { j with stage := .failed } else j

/-- Modelled from the spec: one system step.  A rejected submission leaves
the state unchanged (nothing is queued); stage events touch exactly the
named job. -/
def sysStep (σ : SysState) : SysEvent → SysState
  | .submitEv aid =>
      match submit aid σ with
      | .ok σ2 => σ2
      | .error _ => σ
  | .advanceEv jid =>
      { σ with jobs := σ.jobs.map fun j => if j.jobId == jid then advanceJob j else j }
  | .failEv jid =>
      { σ with jobs := σ.jobs.map fun j => if j.jobId == jid then failJob j else j }

/-- The initial system state: no jobs. -/
def initSys : SysState := { jobs := [], nextId := 0 }

/-- Run a sequence of system events from the initial state. -/
def runSys (evs : List SysEvent) : SysState :=
  evs.foldl sysStep initSys

lemma jobActive_advanceJob (j : Job) (h : jobActive (advanceJob j) = true) :
    jobActive j = true := by
  cases j with
  | mk i a s => cases s <;> simp_all [jobActive, advanceJob, nextStage]

lemma jobActive_failJob (j : Job) (h : jobActive (failJob j) = true) :
    jobActive j = true := by
  cases j with
  | mk i a s => cases s <;> simp_all [jobActive, failJob]

lemma artifactId_advanceJob (j : Job) : (advanceJob j).artifactId = j.artifactId := by
  unfold advanceJob
  cases nextStage j.stage <;> rfl

lemma artifactId_failJob (j : Job) : (failJob j).artifactId = j.artifactId := by
  unfold failJob
  by_cases h : jobActive j <;> simp [h]

lemma countP_map_le {α : Type} (p : α → Bool) (f : α → α) (l : List α)
    (hf : ∀ a, p (f a) = true → p a = true) :
    (l.map f).countP p ≤ l.countP p := by
  rw [List.countP_map]
  exact List.countP_mono_left fun a _ h => hf a h

/-- The §5 invariant: at most one active job per artifact id, preserved by
every system event. -/
lemma countActive_sysStep (σ : SysState) (e : SysEvent) (aid : String)
    (h : countActive aid σ ≤ 1) : countActive aid (sysStep σ e) ≤ 1 := by
  cases e with
  | submitEv a =>
      by_cases hs : 0 < countActive a σ
      · simp only [sysStep, submit, if_pos hs]
        exact h
      · simp only [sysStep, submit, if_neg hs]
        by_cases haid : a = aid
        · subst haid
          have hz : countActive a σ = 0 := by omega
          unfold countActive at hz ⊢
          rw [List.countP_cons, hz]
          simp [jobActive]
        · unfold countActive at h ⊢
          rw [List.countP_cons]
          have hpn : (({ jobId := σ.nextId, artifactId := a, stage := .pending } : Job).artifactId
              == aid && jobActive { jobId := σ.nextId, artifactId := a, stage := .pending })
              = false := by
            simp [haid]
          rw [hpn]
          simpa using h
  | advanceEv jid =>
      simp only [sysStep, countActive] at *
      calc ((σ.jobs.map fun j => if j.jobId == jid then advanceJob j else j).countP
              fun j => j.artifactId == aid && jobActive j)
          ≤ σ.jobs.countP fun j => j.artifactId == aid && jobActive j := by
            apply countP_map_le
            intro a ha
            by_cases hj : a.jobId == jid
            · simp only [hj, if_pos] at ha
              simp only [Bool.and_eq_true] at ha ⊢
              exact ⟨by rw [← artifactId_advanceJob a]; exact ha.1,
                     jobActive_advanceJob a ha.2⟩
            · simpa [hj] using ha
        _ ≤ 1 := h
  | failEv jid =>
      simp only [sysStep, countActive] at *
      calc ((σ.jobs.map fun j => if j.jobId == jid then failJob j else j).countP
              fun j => j.artifactId == aid && jobActive j)
          ≤ σ.jobs.countP fun j => j.artifactId == aid && jobActive j := by
            apply countP_map_le
            intro a ha
            by_cases hj : a.jobId == jid
            · simp only [hj, if_pos] at ha
              simp only [Bool.and_eq_true] at ha ⊢
              exact ⟨by rw [← artifactId_failJob a]; exact ha.1,
                     jobActive_failJob a ha.2⟩
            · simpa [hj] using ha
        _ ≤ 1 := h

lemma countActive_runSys (evs : List SysEvent) (aid : String) :
    countActive aid (runSys evs) ≤ 1 := by
  have main : ∀ (l : List SysEvent) (σ : SysState), countActive aid σ ≤ 1 →
      countActive aid (l.foldl sysStep σ) ≤ 1 := by
    intro l
    induction l with
    | nil => intro σ h; simpa using h
    | cons e l ih =>
        intro σ h
        exact ih (sysStep σ e) (countActive_sysStep σ e aid h)
  have h0 : countActive aid initSys ≤ 1 := by simp [countActive, initSys]
  exact main evs initSys h0

/-- Whether the index already stores a chunk with the given id. -/
def hasId (idx : List Chunk) (i : String × Nat) : Bool :=
  idx.any fun d => decide (d.id = i)

/-- Modelled from the spec: adding one chunk to the Vector Index during the
Embedding stage.  Deterministic chunk ids make the stage "idempotent with
respect to its own output" (§4.1): a chunk whose id is already stored is
not inserted again, so no duplicate vector entries arise. -/
def addChunk (idx : List Chunk) (c : Chunk) : List Chunk :=
  if hasId idx c.id then idx else idx ++ [c]

/-- Modelled from the spec: the Embedding stage (§4.1) — write every chunk
of the chunked set into the Vector Index. -/
def embedStage (idx : List Chunk) (cs : List Chunk) : List Chunk :=
  cs.foldl addChunk idx

/-- Modelled from the spec: the Chunking stage's id assignment (§4.3):
"every chunk inherits its parent segment's full metadata plus a computed
ordinal used for deterministic id generation".  Each text in the segment's
chunk-text list becomes a chunk whose id is `chunkId artifactId ordinal`. -/
def assignChunkIds (artifactId userId : String) (texts : List String) :
    List Chunk :=
  (List.range texts.length).map fun i =>
    { id := chunkId artifactId i
      sourceId := artifactId
      ownerId := userId
      ordinal := i
      text := texts.getD i ""
      embedding := [] }

lemma hasId_addChunk_self (idx : List Chunk) (c : Chunk) :
    hasId (addChunk idx c) c.id = true := by
  unfold addChunk
  by_cases h : hasId idx c.id = true
  · rw [if_pos h]; exact h
  · rw [if_neg h]
    unfold hasId
    simp

lemma hasId_addChunk_mono (idx : List Chunk) (c : Chunk) (i : String × Nat)
    (h : hasId idx i = true) : hasId (addChunk idx c) i = true := by
  unfold addChunk
  by_cases hc : hasId idx c.id = true
  · rw [if_pos hc]; exact h
  · rw [if_neg hc]
    unfold hasId at h ⊢
    simp only [List.any_append, Bool.or_eq_true]
    exact Or.inl h

lemma addChunk_of_hasId (idx : List Chunk) (c : Chunk)
    (h : hasId idx c.id = true) : addChunk idx c = idx := by
  unfold addChunk
  rw [if_pos h]

lemma hasId_embedStage_mono (cs : List Chunk) (idx : List Chunk)
    (i : String × Nat) (h : hasId idx i = true) :
    hasId (embedStage idx cs) i = true := by
  induction cs generalizing idx with
  | nil => simpa [embedStage]
  | cons c cs ih =>
      simp only [embedStage, List.foldl_cons]
      exact ih (addChunk idx c) (hasId_addChunk_mono idx c i h)

lemma hasId_embedStage_of_mem (cs : List Chunk) (idx : List Chunk)
    (c : Chunk) (h : c ∈ cs) : hasId (embedStage idx cs) c.id = true := by
  induction cs generalizing idx with
  | nil => cases h
  | cons d cs ih =>
      simp only [embedStage, List.foldl_cons]
      rcases List.mem_cons.mp h with rfl | hmem
      · exact hasId_embedStage_mono cs (addChunk idx c) c.id
          (hasId_addChunk_self idx c)
      · exact ih (addChunk idx d) hmem

lemma embedStage_of_all_hasId (cs : List Chunk) (idx : List Chunk)
    (h : ∀ c ∈ cs, hasId idx c.id = true) : embedStage idx cs = idx := by
  induction cs with
  | nil => rfl
  | cons c cs ih =>
      simp only [embedStage, List.foldl_cons]
      rw [addChunk_of_hasId idx c (h c (List.mem_cons_self c cs))]
      exact ih fun d hd => h d (List.mem_cons_of_mem c hd)

lemma hasId_iff_mem_map (idx : List Chunk) (i : String × Nat) :
    hasId idx i = true ↔ i ∈ idx.map (·.id) := by
  unfold hasId
  rw [List.any_eq_true]
  constructor
  · rintro ⟨d, hd, hdec⟩
    exact (of_decide_eq_true hdec) ▸ List.mem_map_of_mem (·.id) hd
  · intro hmem
    rcases List.mem_map.mp hmem with ⟨d, hd, hdi⟩
    exact ⟨d, hd, decide_eq_true hdi⟩

lemma nodup_ids_addChunk (idx : List Chunk) (c : Chunk)
    (h : (idx.map (·.id)).Nodup) : ((addChunk idx c).map (·.id)).Nodup := by
  unfold addChunk
  by_cases hc : hasId idx c.id = true
  · rw [if_pos hc]; exact h
  · rw [if_neg hc]
    have hnot : c.id ∉ idx.map (·.id) := fun hmem =>
      hc ((hasId_iff_mem_map idx c.id).mpr hmem)
    rw [List.map_append]
    simp only [List.map_cons, List.map_nil]
    rw [List.nodup_append]
    refine ⟨h, List.nodup_singleton _, ?_⟩
    intro x hx hxc
    have hxe : x = c.id := List.mem_singleton.mp hxc
    subst hxe
    exact hnot hx

lemma nodup_ids_embedStage (cs : List Chunk) (idx : List Chunk)
    (h : (idx.map (·.id)).Nodup) : ((embedStage idx cs).map (·.id)).Nodup := by
  induction cs generalizing idx with
  | nil => simpa [embedStage]
  | cons c cs ih =>
      simp only [embedStage, List.foldl_cons]
      exact ih (addChunk idx c) (nodup_ids_addChunk idx c h)

/-- Modelled from the spec: a sentence boundary character for the §4.3
tolerance-window search. -/
def isSentenceBoundary (c : Char) : Bool :=
  c = '.' || c = '!' || c = '?'

/-- Positions `i` inside the window `w` at or past `lo` holding a sentence
boundary character. -/
def boundaryPositions (w : List Char) (lo : Nat) : List Nat :=
  (List.range w.length).filter fun i =>
    decide (lo ≤ i) && isSentenceBoundary (w.getD i ' ')

/-- The last sentence-boundary position at or past `lo`, if any. -/
def lastBoundary (w : List Char) (lo : Nat) : Option Nat :=
  (boundaryPositions w lo).reverse.head?

/-- Modelled from the spec: the §4.3 split decision for an over-budget
text.  The candidate cut is at the budget `budget`; the chunker "never
splits mid-sentence where a sentence boundary can be found within a
tolerance window" — it cuts just after the last boundary in the final
`tol` characters of the budget window — and "falls back to hard character
split if no boundary is found inside the tolerance". -/
def splitPoint (budget tol : Nat) (s : List Char) : Nat :=
  match lastBoundary (s.take budget) (budget - tol) with
  | some i => i + 1
  | none => budget

/-- Modelled from the spec: the §4.3 Chunker on one segment's text — splits
it "into overlapping chunks bounded by a configured token/character budget
(e.g., 500 units, 100-unit overlap)".  A text within budget is one chunk;
otherwise the text up to the split point becomes a chunk and chunking
continues `overlap` characters before the split point (with a minimum
one-character advance so the recursion always progresses). -/
def chunkText (budget overlap tol : Nat) (s : List Char) : List (List Char) :=
  if _h : s.length ≤ budget then [s]
  else
    s.take (splitPoint budget tol s) ::
      chunkText budget overlap tol
        (s.drop (max 1 (splitPoint budget tol s - overlap)))
termination_by s.length
decreasing_by
  simp only [List.length_drop]
  omega

lemma head?_mem {α : Type} {l : List α} {a : α} (h : l.head? = some a) :
    a ∈ l := by
  cases l with
  | nil => cases h
  | cons b t =>
      have hb : b = a := by simpa using h
      subst hb
      exact List.mem_cons_self _ _

lemma lastBoundary_mem (w : List Char) (lo : Nat) (i : Nat)
    (h : lastBoundary w lo = some i) :
    lo ≤ i ∧ i < w.length ∧ isSentenceBoundary (w.getD i ' ') = true := by
  unfold lastBoundary at h
  have hmem : i ∈ (boundaryPositions w lo).reverse := head?_mem h
  have hmem2 : i ∈ boundaryPositions w lo := List.mem_reverse.mp hmem
  unfold boundaryPositions at hmem2
  rcases List.mem_filter.mp hmem2 with ⟨hr, hp⟩
  rcases (Bool.and_eq_true _ _).mp hp with ⟨hlo, hsb⟩
  exact ⟨of_decide_eq_true hlo, List.mem_range.mp hr, hsb⟩

lemma lastBoundary_none (w : List Char) (lo : Nat)
    (h : lastBoundary w lo = none) :
    ∀ i, lo ≤ i → i < w.length → isSentenceBoundary (w.getD i ' ') = false := by
  intro i hlo hi
  unfold lastBoundary at h
  have hnil : (boundaryPositions w lo).reverse = [] := by
    cases hrev : (boundaryPositions w lo).reverse with
    | nil => rfl
    | cons a t => rw [hrev] at h; cases h
  have hempty : boundaryPositions w lo = [] := List.reverse_eq_nil_iff.mp hnil
  by_contra hsb
  have hsb2 : isSentenceBoundary (w.getD i ' ') = true := by
    cases hb : isSentenceBoundary (w.getD i ' ') with
    | true => rfl
    | false => exact absurd hb hsb
  have hmem : i ∈ boundaryPositions w lo := by
    unfold boundaryPositions
    refine List.mem_filter.mpr ⟨List.mem_range.mpr hi, ?_⟩
    rw [Bool.and_eq_true]
    exact ⟨decide_eq_true hlo, hsb2⟩
  rw [hempty] at hmem
  cases hmem

lemma splitPoint_bounds (budget tol : Nat) (s : List Char) :
    budget - tol ≤ splitPoint budget tol s ∧ splitPoint budget tol s ≤ budget := by
  cases hlb : lastBoundary (s.take budget) (budget - tol) with
  | none =>
      unfold splitPoint
      rw [hlb]
      show budget - tol ≤ budget ∧ budget ≤ budget
      omega
  | some i =>
      rcases lastBoundary_mem _ _ _ hlb with ⟨hlo, hlt, _⟩
      rw [List.length_take] at hlt
      unfold splitPoint
      rw [hlb]
      show budget - tol ≤ i + 1 ∧ i + 1 ≤ budget
      have hib : i < budget := lt_of_lt_of_le hlt (min_le_left _ _)
      omega

lemma getD_take (s : List Char) (n i : Nat) (hi : i < n) :
    (s.take n).getD i ' ' = s.getD i ' ' := by
  rw [List.getD_eq_getElem?_getD, List.getD_eq_getElem?_getD,
    List.getElem?_take, if_pos hi]

/-- One-step unfolding of `chunkText` for a within-budget text. -/
lemma chunkText_eq_of_le {budget overlap tol : Nat} {s : List Char}
    (h : s.length ≤ budget) : chunkText budget overlap tol s = [s] := by
  rw [chunkText]
  rw [dif_pos h]

/-- One-step unfolding of `chunkText` for an over-budget text. -/
lemma chunkText_eq_of_gt {budget overlap tol : Nat} {s : List Char}
    (h : ¬ s.length ≤ budget) :
    chunkText budget overlap tol s =
      s.take (splitPoint budget tol s) ::
        chunkText budget overlap tol
          (s.drop (max 1 (splitPoint budget tol s - overlap))) := by
  rw [chunkText]
  rw [dif_neg h]

lemma chunkText_length_le_aux (budget overlap tol : Nat) :
    ∀ (n : Nat) (s : List Char), s.length ≤ n →
      ∀ c ∈ chunkText budget overlap tol s, c.length ≤ budget := by
  intro n
  induction n with
  | zero =>
      intro s hs c hc
      have hsb : s.length ≤ budget := by omega
      rw [chunkText_eq_of_le hsb] at hc
      have : c = s := List.mem_singleton.mp hc
      subst this
      omega
  | succ n ih =>
      intro s hs c hc
      by_cases hb : s.length ≤ budget
      · rw [chunkText_eq_of_le hb] at hc
        have : c = s := List.mem_singleton.mp hc
        subst this
        omega
      · rw [chunkText_eq_of_gt hb] at hc
        rcases List.mem_cons.mp hc with rfl | hrec
        · rw [List.length_take]
          have := (splitPoint_bounds budget tol s).2
          omega
        · refine ih (s.drop (max 1 (splitPoint budget tol s - overlap))) ?_ c hrec
          rw [List.length_drop]
          omega

/-- Every chunk the chunker produces fits the budget. -/
lemma chunkText_length_le (budget overlap tol : Nat) (s : List Char) :
    ∀ c ∈ chunkText budget overlap tol s, c.length ≤ budget :=
  chunkText_length_le_aux budget overlap tol s.length s le_rfl

lemma chunkText_head (budget overlap tol : Nat) (s : List Char) :
    ∃ q, (chunkText budget overlap tol s).head? = some (s.take q) ∧
      (q = s.length ∨ (budget - tol ≤ q ∧ q ≤ budget)) := by
  by_cases hb : s.length ≤ budget
  · refine ⟨s.length, ?_, Or.inl rfl⟩
    rw [chunkText_eq_of_le hb, List.take_length]
    rfl
  · refine ⟨splitPoint budget tol s, ?_, Or.inr (splitPoint_bounds budget tol s)⟩
    rw [chunkText_eq_of_gt hb]
    rfl

/-- The §4.3 adjacency relation: the last `overlap` characters of one chunk
are the first `overlap` characters of the next. -/
def overlapR (overlap : Nat) (c d : List Char) : Prop :=
  c.drop (c.length - overlap) = d.take overlap

lemma chunkText_chain_aux (budget overlap tol : Nat)
    (hOT : overlap < budget - tol) :
    ∀ (n : Nat) (s : List Char), s.length ≤ n →
      List.Chain' (overlapR overlap) (chunkText budget overlap tol s) := by
  intro n
  induction n with
  | zero =>
      intro s hs
      have hsb : s.length ≤ budget := by omega
      rw [chunkText_eq_of_le hsb]
      exact List.chain'_singleton s
  | succ n ih =>
      intro s hs
      by_cases hb : s.length ≤ budget
      · rw [chunkText_eq_of_le hb]
        exact List.chain'_singleton s
      · rw [chunkText_eq_of_gt hb]
        have hp := splitPoint_bounds budget tol s
        set p := splitPoint budget tol s with hpdef
        have hOp : overlap < p := by omega
        have hps : p ≤ s.length := by omega
        have hmax : max 1 (p - overlap) = p - overlap := by omega
        rw [hmax]
        set s2 := s.drop (p - overlap) with hs2def
        have hs2len : s2.length = s.length - (p - overlap) := by
          rw [hs2def, List.length_drop]
        rw [List.chain'_cons']
        constructor
        · intro y hy
          rcases chunkText_head budget overlap tol s2 with ⟨q, hq, hqb⟩
          rw [hq] at hy
          have hyq : s2.take q = y := by simpa using hy
          subst hyq
          unfold overlapR
          have hlen : (s.take p).length = p := by
            rw [List.length_take]
            omega
          rw [hlen]
          rw [List.drop_take]
          have hpo : p - (p - overlap) = overlap := by omega
          rw [hpo, ← hs2def]
          have hOq : overlap ≤ q := by
            rcases hqb with hq1 | hq2
            · omega
            · omega
          rw [List.take_take]
          have : overlap ⊓ q = overlap := by omega
          rw [this]
        · apply ih
          rw [hs2len]
          omega

/-- The chunker's output overlaps: consecutive chunks share `overlap`
characters, provided the overlap is smaller than the guaranteed split
point (`overlap < budget - tol`). -/
lemma chunkText_chain (budget overlap tol : Nat)
    (hOT : overlap < budget - tol) (s : List Char) :
    List.Chain' (overlapR overlap) (chunkText budget overlap tol s) :=
  chunkText_chain_aux budget overlap tol hOT s.length s le_rfl

end Pipeline

/-- C9: On the settings page, the Top-K retrieval value is always at least
1: starting from its initial value 5, every state reachable under any
sequence of decrement clicks, increment clicks, and typed inputs
(non-numeric text parses to NaN and is replaced by 1) satisfies
`topK ≥ 1`. -/
theorem c9_topK_always_ge_one (evs : List SettingsPage.TopKEvent) :
    1 ≤ SettingsPage.topKRun evs :=
  SettingsPage.topKFoldl_ge_one evs SettingsPage.initialSettings.topK
    (by norm_num [SettingsPage.initialSettings])

/-- C10: `handleReset` (wired to both "Reset Defaults" and "Cancel") sets
exactly the three RAG parameters back to their defaults — `chunkSize` to
1024, `topK` to 5, `temperature` to 0.7 — and leaves every other piece of
page state, in particular the entered API key, its visibility flag, and
the toast flag, unchanged. -/
theorem c10_handleReset_frame (s : SettingsPage.SettingsState) :
    (SettingsPage.handleReset s).chunkSize = 1024 ∧
    (SettingsPage.handleReset s).topK = 5 ∧
    (SettingsPage.handleReset s).temperature = 7/10 ∧
    (SettingsPage.handleReset s).apiKey = s.apiKey ∧
    (SettingsPage.handleReset s).isApiKeyVisible = s.isApiKeyVisible ∧
    (SettingsPage.handleReset s).showToast = s.showToast :=
  ⟨rfl, rfl, rfl, rfl, rfl, rfl⟩

/-- C1: for every composed answer, the answer text is returned unmodified,
every citation in the structured list resolves to a chunk of the
ordinal-to-chunk mapping used to build the prompt, and any ordinal with no
corresponding chunk is dropped from the structured citation list. -/
theorem c1_citations_resolve (ctx : List (Nat × Pipeline.Chunk)) (t : String) :
    (Pipeline.resolveCitations ctx t).text = t ∧
    (∀ c ∈ (Pipeline.resolveCitations ctx t).citations,
      ∃ ch, (c.ordinal, ch) ∈ ctx ∧ c.chunkId = ch.id) ∧
    (∀ o, ctx.lookup o = none →
      ∀ c ∈ (Pipeline.resolveCitations ctx t).citations, c.ordinal ≠ o) := by
  refine ⟨rfl, ?_, ?_⟩
  · intro c hc
    simp only [Pipeline.resolveCitations, List.mem_filterMap] at hc
    obtain ⟨o, _ho, hmap⟩ := hc
    rcases Option.map_eq_some'.mp hmap with ⟨ch, hlk, hmk⟩
    subst hmk
    exact ⟨ch, Pipeline.lookup_mem ctx o ch hlk, rfl⟩
  · intro o hnone c hc
    simp only [Pipeline.resolveCitations, List.mem_filterMap] at hc
    obtain ⟨o2, _ho2, hmap⟩ := hc
    rcases Option.map_eq_some'.mp hmap with ⟨ch, hlk, hmk⟩
    subst hmk
    intro heq
    have ho2o : o2 = o := heq
    subst ho2o
    rw [hnone] at hlk
    cases hlk

/-- A concrete context for exercising the composer: one chunk, ordinal 1. -/
def ctxW : List (Nat × Pipeline.Chunk) :=
  [(1, { id := ("art", 0), sourceId := "art", ownerId := "u", ordinal := 0,
         text := "velocity is a vector", embedding := [1, 0] })]

/-- The citation the composer produces for ordinal 1 of `ctxW`. -/
def citW : Pipeline.Citation :=
  { ordinal := 1, chunkId := ("art", 0), snippet := "velocity is a vector" }

theorem c1_citations_resolve_witness :
    (Pipeline.resolveCitations ctxW "See [1] and [2].").text = "See [1] and [2]." ∧
    (∃ ch, (citW.ordinal, ch) ∈ ctxW ∧ citW.chunkId = ch.id) :=
  ⟨(c1_citations_resolve ctxW "See [1] and [2].").1,
   (c1_citations_resolve ctxW "See [1] and [2].").2.1 citW (by decide)⟩

/-- C2: with zero retrieved chunks (here: the empty vector index for the
user), the answer path still returns a response — the explicit
no-information message — whose text contains no bracket citations and
whose citation list is empty. -/
theorem c2_empty_retrieval_no_info (user : String) (q : List Int) (k : Nat)
    (genText : String) :
    Pipeline.askPipeline [] user q k genText =
      { text := Pipeline.noInfoMessage, citations := [] } ∧
    Pipeline.extractOrdinals Pipeline.noInfoMessage.data = [] ∧
    (Pipeline.askPipeline [] user q k genText).citations = [] := by
  have hsearch : Pipeline.search [] user q k = [] := by
    unfold Pipeline.search Pipeline.rankSort
    simp
  refine ⟨?_, by decide, ?_⟩
  · unfold Pipeline.askPipeline
    rw [hsearch]
    rfl
  · unfold Pipeline.askPipeline
    rw [hsearch]
    rfl


/-- C3: the ingestion job's stage only moves along the strictly linear
sequence Pending, Downloading, Loading, Enriching, Chunking, Embedding,
Completed — each step advances to the next stage or to Failed, with no
other transition — and the progress reported after every stage is
monotonically non-decreasing over the job's lifetime. -/
theorem c3_linear_stages_monotone_progress :
    (Pipeline.nextStage .pending = some .downloading ∧
     Pipeline.nextStage .downloading = some .loading ∧
     Pipeline.nextStage .loading = some .enriching ∧
     Pipeline.nextStage .enriching = some .chunking ∧
     Pipeline.nextStage .chunking = some .embedding ∧
     Pipeline.nextStage .embedding = some .completed ∧
     Pipeline.nextStage .completed = none ∧
     Pipeline.nextStage .failed = none) ∧
    (∀ j j2 : Pipeline.JobState, Pipeline.JobStep j j2 →
      Pipeline.nextStage j.stage = some j2.stage ∨ j2.stage = .failed) ∧
    (∀ j j2 : Pipeline.JobState, Pipeline.JobReachable j →
      Pipeline.JobStep j j2 → j.progress ≤ j2.progress) := by
  refine ⟨⟨rfl, rfl, rfl, rfl, rfl, rfl, rfl, rfl⟩, ?_, ?_⟩
  · intro j j2 hstep
    cases hstep with
    | advance s hns => exact Or.inl hns
    | fail h1 h2 => exact Or.inr rfl
  · intro j j2 hreach hstep
    cases hstep with
    | advance s hns =>
        rcases Pipeline.jobReachable_progress_eq j hreach with hf | hp
        · rw [hf] at hns
          cases hns
        · rw [hp]
          exact Pipeline.nextStage_progress_mono _ _ hns
    | fail h1 h2 => exact le_refl _

theorem c3_linear_stages_monotone_progress_witness :
    Pipeline.JobReachable Pipeline.initJob ∧
    Pipeline.JobStep Pipeline.initJob
      { stage := .downloading, progress := Pipeline.stageProgress .downloading } ∧
    Pipeline.initJob.progress ≤
      ({ stage := .downloading,
         progress := Pipeline.stageProgress .downloading } : Pipeline.JobState).progress := by
  have hr : Pipeline.JobReachable Pipeline.initJob := Relation.ReflTransGen.refl
  have hs : Pipeline.JobStep Pipeline.initJob
      { stage := .downloading, progress := Pipeline.stageProgress .downloading } :=
    Pipeline.JobStep.advance Pipeline.initJob .downloading rfl
  exact ⟨hr, hs, c3_linear_stages_monotone_progress.2.2 _ _ hr hs⟩

/-- The double-submission scenario's first half: submit artifact "a" and
advance its job (id 0) to Enriching. -/
def scenarioPrefix : List Pipeline.SysEvent :=
  [.submitEv "a", .advanceEv 0, .advanceEv 0, .advanceEv 0]

/-- The whole scenario: a second submission of "a" while the first job is
Enriching, then three more advances to Completed. -/
def scenarioTrace : List Pipeline.SysEvent :=
  scenarioPrefix ++ [.submitEv "a", .advanceEv 0, .advanceEv 0, .advanceEv 0]

/-- C4: in every reachable system state there is at most one active
(non-terminal) ingestion job per artifact id; submitting an artifact id
while a job for it is in-flight is rejected with the "already in progress"
signal and queues nothing; and in the spec's double-submission scenario
(second submit while the first job is Enriching) the second submission
leaves the system unchanged and exactly one job for the artifact reaches
Completed. -/
theorem c4_one_active_job_per_artifact :
    (∀ (evs : List Pipeline.SysEvent) (aid : String),
      Pipeline.countActive aid (Pipeline.runSys evs) ≤ 1) ∧
    (∀ (σ : Pipeline.SysState) (aid : String), 0 < Pipeline.countActive aid σ →
      Pipeline.submit aid σ = .error "already in progress") ∧
    (∀ (σ : Pipeline.SysState) (aid : String), 0 < Pipeline.countActive aid σ →
      Pipeline.sysStep σ (.submitEv aid) = σ) ∧
    ((Pipeline.runSys scenarioPrefix).jobs.map Pipeline.Job.stage =
        [.enriching] ∧
     Pipeline.runSys (scenarioPrefix ++ [.submitEv "a"]) =
        Pipeline.runSys scenarioPrefix ∧
     ((Pipeline.runSys scenarioTrace).jobs.countP
        fun j => j.artifactId == "a" && j.stage == .completed) = 1 ∧
     (Pipeline.runSys scenarioTrace).jobs.length = 1) := by
  refine ⟨fun evs aid => Pipeline.countActive_runSys evs aid, ?_, ?_, ?_⟩
  · intro σ aid h
    unfold Pipeline.submit
    rw [if_pos h]
  · intro σ aid h
    simp only [Pipeline.sysStep, Pipeline.submit, if_pos h]
  · refine ⟨by decide, by decide, by decide, by decide⟩

theorem c4_one_active_job_per_artifact_witness :
    0 < Pipeline.countActive "a" (Pipeline.runSys scenarioPrefix) ∧
    Pipeline.submit "a" (Pipeline.runSys scenarioPrefix) =
      .error "already in progress" ∧
    Pipeline.sysStep (Pipeline.runSys scenarioPrefix) (.submitEv "a") =
      Pipeline.runSys scenarioPrefix := by
  have h : 0 < Pipeline.countActive "a" (Pipeline.runSys scenarioPrefix) := by
    decide
  exact ⟨h, c4_one_active_job_per_artifact.2.1 _ "a" h,
    c4_one_active_job_per_artifact.2.2.1 _ "a" h⟩

/-- C5: chunk id generation is a deterministic function of exactly the
artifact id and the ordinal position (ids from a chunking run are the
artifact id paired with each ordinal, independent of owner, text or run);
the ids of one run are duplicate-free; and re-running the Embedding stage
on an already-embedded set changes nothing (idempotence), never creating
duplicate vector entries. -/
theorem c5_deterministic_ids_idempotent_embedding :
    (∀ (a a2 : String) (o o2 : Nat),
      Pipeline.chunkId a o = Pipeline.chunkId a2 o2 ↔ (a = a2 ∧ o = o2)) ∧
    (∀ (aid uid : String) (ts : List String),
      (Pipeline.assignChunkIds aid uid ts).map (·.id) =
        (List.range ts.length).map (Pipeline.chunkId aid)) ∧
    (∀ (aid uid : String) (ts : List String),
      ((Pipeline.assignChunkIds aid uid ts).map (·.id)).Nodup) ∧
    (∀ (idx cs : List Pipeline.Chunk),
      Pipeline.embedStage (Pipeline.embedStage idx cs) cs =
        Pipeline.embedStage idx cs) ∧
    (∀ (idx cs : List Pipeline.Chunk), (idx.map (·.id)).Nodup →
      ((Pipeline.embedStage idx cs).map (·.id)).Nodup) := by
  have hids : ∀ (aid uid : String) (ts : List String),
      (Pipeline.assignChunkIds aid uid ts).map (·.id) =
        (List.range ts.length).map (Pipeline.chunkId aid) := by
    intro aid uid ts
    unfold Pipeline.assignChunkIds
    rw [List.map_map]
    rfl
  refine ⟨?_, hids, ?_, ?_, ?_⟩
  · intro a a2 o o2
    unfold Pipeline.chunkId
    rw [Prod.mk.injEq]
  · intro aid uid ts
    rw [hids aid uid ts]
    refine List.Nodup.map ?_ (List.nodup_range _)
    intro x y hxy
    exact ((Prod.mk.injEq _ _ _ _).mp hxy).2
  · intro idx cs
    exact Pipeline.embedStage_of_all_hasId cs _
      (fun c hc => Pipeline.hasId_embedStage_of_mem cs idx c hc)
  · intro idx cs h
    exact Pipeline.nodup_ids_embedStage cs idx h

/-- A two-chunk store used as a concrete embedding input. -/
def embedW : List Pipeline.Chunk :=
  [{ id := ("art", 0), sourceId := "art", ownerId := "u", ordinal := 0,
     text := "alpha", embedding := [1] },
   { id := ("art", 1), sourceId := "art", ownerId := "u", ordinal := 1,
     text := "beta", embedding := [2] }]

theorem c5_deterministic_ids_idempotent_embedding_witness :
    (([] : List Pipeline.Chunk).map (·.id)).Nodup ∧
    ((Pipeline.embedStage [] embedW).map (·.id)).Nodup :=
  ⟨by decide,
   c5_deterministic_ids_idempotent_embedding.2.2.2.2 [] embedW (by decide)⟩

/-- C6: `deleteBySource(id)` removes exactly the chunks whose source id
equals `id`: membership in the result is membership in the store with a
different source id, multiplicities of chunks with a different source id
are unchanged, and no chunk with the deleted source id remains. -/
theorem c6_deleteBySource_exact (idx : List Pipeline.Chunk) (aid : String) :
    (∀ c : Pipeline.Chunk,
      c ∈ Pipeline.deleteBySource aid idx ↔ (c ∈ idx ∧ c.sourceId ≠ aid)) ∧
    (∀ c : Pipeline.Chunk, c.sourceId ≠ aid →
      (Pipeline.deleteBySource aid idx).count c = idx.count c) ∧
    (∀ c ∈ Pipeline.deleteBySource aid idx, c.sourceId ≠ aid) := by
  have hmem : ∀ c : Pipeline.Chunk,
      c ∈ Pipeline.deleteBySource aid idx ↔ (c ∈ idx ∧ c.sourceId ≠ aid) := by
    intro c
    unfold Pipeline.deleteBySource
    rw [List.mem_filter]
    simp
  refine ⟨hmem, ?_, fun c hc => ((hmem c).mp hc).2⟩
  intro c hc
  unfold Pipeline.deleteBySource
  refine List.count_filter ?_
  simp [hc]

/-- A surviving chunk from the "keep" artifact. -/
def chunkKeepW : Pipeline.Chunk :=
  { id := ("keep", 0), sourceId := "keep", ownerId := "u", ordinal := 0,
    text := "kept", embedding := [1] }

/-- A store with chunks from two artifacts. -/
def idxW : List Pipeline.Chunk :=
  [chunkKeepW,
   { id := ("gone", 0), sourceId := "gone", ownerId := "u", ordinal := 0,
     text := "dropped", embedding := [2] }]

theorem c6_deleteBySource_exact_witness :
    (chunkKeepW ∈ Pipeline.deleteBySource "gone" idxW ↔
      (chunkKeepW ∈ idxW ∧ chunkKeepW.sourceId ≠ "gone")) ∧
    (chunkKeepW.sourceId ≠ "gone" ∧
      (Pipeline.deleteBySource "gone" idxW).count chunkKeepW =
        idxW.count chunkKeepW) :=
  ⟨(c6_deleteBySource_exact idxW "gone").1 _,
   ⟨by decide, (c6_deleteBySource_exact idxW "gone").2.1 _ (by decide)⟩⟩

/-- C7: vector-index search is namespaced per user at the interface: the
result of a user's query depends only on that user's partition of the
store (so it is identical whether or not any other user's chunks exist),
and every result belongs to the querying user. -/
theorem c7_search_namespaced (idx idx2 : List Pipeline.Chunk) (user : String)
    (q : List Int) (k : Nat)
    (h : idx.filter (fun c => c.ownerId == user) =
         idx2.filter (fun c => c.ownerId == user)) :
    Pipeline.search idx user q k = Pipeline.search idx2 user q k ∧
    ∀ c ∈ Pipeline.search idx user q k, c.ownerId = user := by
  constructor
  · unfold Pipeline.search
    rw [h]
  · intro c hc
    unfold Pipeline.search at hc
    have h1 : c ∈ Pipeline.rankSort q (idx.filter fun c => c.ownerId == user) :=
      List.mem_of_mem_take hc
    have h2 : c ∈ idx.filter fun c => c.ownerId == user :=
      (Pipeline.mem_rankSort q c _).mp h1
    have h3 := (List.mem_filter.mp h2).2
    exact eq_of_beq h3

/-- A store holding chunks of two different users. -/
def idxTwoUsersW : List Pipeline.Chunk :=
  [{ id := ("a", 0), sourceId := "a", ownerId := "alice", ordinal := 0,
     text := "hers", embedding := [3] },
   { id := ("b", 0), sourceId := "b", ownerId := "bob", ordinal := 0,
     text := "his", embedding := [5] }]

/-- The same store with the other user's chunk absent. -/
def idxOneUserW : List Pipeline.Chunk :=
  [{ id := ("a", 0), sourceId := "a", ownerId := "alice", ordinal := 0,
     text := "hers", embedding := [3] }]

theorem c7_search_namespaced_witness :
    Pipeline.search idxTwoUsersW "alice" [1] 5 =
      Pipeline.search idxOneUserW "alice" [1] 5 :=
  (c7_search_namespaced idxTwoUsersW idxOneUserW "alice" [1] 5 (by decide)).1

/-- C8: the chunker produces chunks each bounded by the configured budget;
consecutive chunks overlap by the configured overlap (when the overlap is
below the guaranteed split point); the split is never mid-sentence when a
sentence boundary exists within the tolerance window (the cut lands right
after a boundary character); and the hard character split at the budget is
used only when no boundary lies inside the tolerance window. -/
theorem c8_chunker (budget overlap tol : Nat) (s : List Char) :
    (∀ c ∈ Pipeline.chunkText budget overlap tol s, c.length ≤ budget) ∧
    (overlap < budget - tol →
      List.Chain' (Pipeline.overlapR overlap)
        (Pipeline.chunkText budget overlap tol s)) ∧
    (budget < s.length →
      (∃ i, budget - tol ≤ i ∧ i < budget ∧
        Pipeline.isSentenceBoundary (s.getD i ' ') = true) →
      Pipeline.isSentenceBoundary
        (s.getD (Pipeline.splitPoint budget tol s - 1) ' ') = true) ∧
    (budget < s.length →
      (∀ i, budget - tol ≤ i → i < budget →
        Pipeline.isSentenceBoundary (s.getD i ' ') = false) →
      Pipeline.splitPoint budget tol s = budget) := by
  refine ⟨Pipeline.chunkText_length_le budget overlap tol s,
    fun h => Pipeline.chunkText_chain budget overlap tol h s, ?_, ?_⟩
  · intro hbs hex
    obtain ⟨i, hlo, hib, hsb⟩ := hex
    cases hlb : Pipeline.lastBoundary (s.take budget) (budget - tol) with
    | none =>
        exfalso
        have hnone := Pipeline.lastBoundary_none _ _ hlb i hlo
          (by rw [List.length_take]; omega)
        rw [Pipeline.getD_take s budget i hib] at hnone
        rw [hsb] at hnone
        cases hnone
    | some j =>
        rcases Pipeline.lastBoundary_mem _ _ _ hlb with ⟨_hlo2, hlt2, hsb2⟩
        have hjb : j < budget := by rw [List.length_take] at hlt2; omega
        unfold Pipeline.splitPoint
        rw [hlb]
        show Pipeline.isSentenceBoundary (s.getD (j + 1 - 1) ' ') = true
        rw [Nat.add_sub_cancel, ← Pipeline.getD_take s budget j hjb]
        exact hsb2
  · intro hbs hno
    cases hlb : Pipeline.lastBoundary (s.take budget) (budget - tol) with
    | none =>
        unfold Pipeline.splitPoint
        rw [hlb]
    | some j =>
        exfalso
        rcases Pipeline.lastBoundary_mem _ _ _ hlb with ⟨hlo2, hlt2, hsb2⟩
        have hjb : j < budget := by rw [List.length_take] at hlt2; omega
        rw [Pipeline.getD_take s budget j hjb] at hsb2
        rw [hno j hlo2 hjb] at hsb2
        cases hsb2

/-- A within-budget segment text. -/
def sShortW : List Char := ['H', 'e', 'l', 'l', 'o', '.']

/-- An over-budget text with a sentence boundary at position 7, inside the
tolerance window [6, 10) for budget 10 and tolerance 4. -/
def sBoundaryW : List Char :=
  ['a', 'b', 'c', 'd', 'e', 'f', 'g', '.', ' ', 'm', 'o', 'r', 'e', ' ', 't', 'x']

/-- An over-budget text with no sentence boundary anywhere. -/
def sNoBoundaryW : List Char :=
  ['a', 'b', 'c', 'd', 'e', 'f', 'g', 'h', 'i', 'j', 'k', 'l']

theorem c8_chunker_witness :
    sShortW ∈ Pipeline.chunkText 10 2 4 sShortW ∧
    sShortW.length ≤ 10 ∧
    List.Chain' (Pipeline.overlapR 2) (Pipeline.chunkText 10 2 4 sBoundaryW) ∧
    Pipeline.isSentenceBoundary
      (sBoundaryW.getD (Pipeline.splitPoint 10 4 sBoundaryW - 1) ' ') = true ∧
    Pipeline.splitPoint 10 4 sNoBoundaryW = 10 := by
  have hmem : sShortW ∈ Pipeline.chunkText 10 2 4 sShortW := by
    rw [Pipeline.chunkText_eq_of_le (by decide)]
    exact List.mem_singleton_self _
  refine ⟨hmem, (c8_chunker 10 2 4 sShortW).1 sShortW hmem,
    (c8_chunker 10 2 4 sBoundaryW).2.1 (by decide),
    (c8_chunker 10 2 4 sBoundaryW).2.2.1 (by decide)
      ⟨7, by decide, by decide, by decide⟩,
    (c8_chunker 10 2 4 sNoBoundaryW).2.2.2 (by decide) ?_⟩
  intro i h1 h2
  interval_cases i <;> decide
